/-
Verification of the container-extraction pipeline and structured-field
parser of this repository (`Parser_final_0501.py`, `parser_emailthread.py`)
against its specification.

The Python source is shallowly embedded: strings are `List Char` wrapped in
`String` (Lean 4.14's `String` is a structure over `List Char`), Python
regular-expression operations are translated into the deterministic
scanning functions they denote for the concrete patterns used by the code
(analysed under Python `re` leftmost / greedy-with-backtracking / lazy
semantics, ASCII character classes), fallible Python code becomes `Except`,
and external library objects (`extract_msg`, `PyPDF2`, `python-docx`,
`python-pptx`, `openpyxl`) become inductive payload trees whose observable
behaviour mirrors the library calls the source makes.
-/
import Mathlib

namespace EmailParser

/-! ## Character classes (ASCII models of Python's `re` classes) -/

/-- Python `[ \t]` — horizontal whitespace used by `re.sub(r'[ \t]+', ' ')`. -/
def isST (c : Char) : Bool := c = ' ' || c = '\t'

/-- Python `\s` (ASCII part): space, tab, newline, carriage return,
vertical tab, form feed. -/
def isWS (c : Char) : Bool :=
  c = ' ' || c = '\t' || c = '\n' || c = '\r' || c = '\x0b' || c = '\x0c'

/-- Python `\d` (ASCII part). -/
def isDigitC (c : Char) : Bool := c.isDigit

/-- Python `[\w\s]` (ASCII part): word characters (alphanumeric or
underscore) or whitespace. -/
def isWordSpace (c : Char) : Bool := c.isAlphanum || c = '_' || isWS c

/-! ## Body Normalizer (`format_email_body`, Parser_final_0501.py:18-32)

The Python function performs, in order:
  1. `body.replace('\r\n', '\n').replace('\r', '\n')`
  2. `re.sub(r'[ \t]+', ' ', body)`
  3. `re.sub(r'\n\s*\n', '\n\n', body)`
  4. `body.strip()`
Each step is embedded as a function on `List Char`. -/

/-- Step 1a: `body.replace('\r\n', '\n')` — replace each non-overlapping
occurrence of CRLF (leftmost first) by LF. -/
def replCRLF : List Char → List Char
  | [] => []
  | [c] => [c]
  | c :: d :: rest =>
    if c = '\r' ∧ d = '\n' then '\n' :: replCRLF rest
    else c :: replCRLF (d :: rest)

/-- Step 1b: `body.replace('\r', '\n')`. -/
def replCR (l : List Char) : List Char :=
  l.map (fun c => if c = '\r' then '\n' else c)

theorem dropWhile_length_le (p : Char → Bool) (l : List Char) :
    (l.dropWhile p).length ≤ l.length := by
  induction l with
  | nil => simp [List.dropWhile]
  | cons c rest ih =>
    by_cases h : p c
    · simp only [List.dropWhile, h]
      exact Nat.le_succ_of_le ih
    · simp [List.dropWhile, h]

/-- Step 2: `re.sub(r'[ \t]+', ' ', body)` — each maximal run of
spaces/tabs becomes a single space (the regex is deterministic: a maximal
`[ \t]+` run is the unique leftmost match). -/
def collapseST : List Char → List Char
  | [] => []
  | c :: rest =>
    if isST c then ' ' :: collapseST (rest.dropWhile isST)
    else c :: collapseST rest
termination_by l => l.length
decreasing_by
  · exact Nat.lt_succ_of_le (dropWhile_length_le isST rest)
  · simp

/-- Helper for step 3: given that the leading whitespace run of `l`
contains a `'\n'`, drop through the *last* `'\n'` of that run (the regex
`\n\s*\n` matches greedily: `\s*` backtracks minimally, so the match ends
at the last newline of the maximal whitespace run). -/
def dropThru : List Char → List Char
  | [] => []
  | c :: rest =>
    if isWS c then
      if c = '\n' ∧ '\n' ∉ rest.takeWhile isWS then rest
      else dropThru rest
    else c :: rest

theorem dropThru_length_le (l : List Char) : (dropThru l).length ≤ l.length := by
  induction l with
  | nil => simp [dropThru]
  | cons d t ih =>
    by_cases hws : isWS d
    · by_cases hnl : d = '\n' ∧ '\n' ∉ t.takeWhile isWS
      · obtain ⟨rfl, h2⟩ := hnl
        simp only [dropThru, hws, if_true, h2, not_false_iff, and_self, List.length_cons]
        exact Nat.le_succ _
      · simp only [dropThru, hws, if_true, if_neg hnl]
        exact Nat.le_succ_of_le ih
    · simp [dropThru, hws]

/-- Step 3: `re.sub(r'\n\s*\n', '\n\n', body)` (DOTALL irrelevant here).
A match starts at a `'\n'` whose following whitespace run contains another
`'\n'`; the matched region runs through the last `'\n'` of that run and is
replaced by exactly two newlines; scanning resumes after the match. -/
def collapseNL : List Char → List Char
  | [] => []
  | c :: rest =>
    if c = '\n' ∧ '\n' ∈ rest.takeWhile isWS then
      '\n' :: '\n' :: collapseNL (dropThru rest)
    else c :: collapseNL rest
termination_by l => l.length
decreasing_by
  · exact Nat.lt_succ_of_le (dropThru_length_le rest)
  · simp

/-- Step 4: `body.strip()` — remove leading and trailing whitespace. -/
def pstrip (l : List Char) : List Char :=
  ((l.dropWhile isWS).reverse.dropWhile isWS).reverse

/-- The Body Normalizer on character lists: the four steps of
`format_email_body` in source order. -/
def normalizeL (l : List Char) : List Char :=
  pstrip (collapseNL (collapseST (replCR (replCRLF l))))

/-- `format_email_body` (Parser_final_0501.py:18-32). -/
def format_email_body (s : String) : String := ⟨normalizeL s.data⟩

/-! ### Invariants of normalized text

A normalized body has no carriage returns, no tabs, no two adjacent
horizontal-whitespace characters, no unnormalized blank-line runs
(captured by `nlOk`), and no leading/trailing whitespace.  Each stage of
`format_email_body` establishes part of this and the later stages
preserve it; on text satisfying it every stage is the identity. -/

/-- No two adjacent characters are both space/tab. -/
def STsep (l : List Char) : Prop :=
  l.Chain' (fun a b => (isST a && isST b) = false)

/-- Every blank-line run is already in the collapsed form produced by
`collapseNL`: a `'\n'` whose following whitespace run contains another
newline must be immediately followed by that newline, and at most one. -/
def nlOk : List Char → Bool
  | [] => true
  | c :: rest =>
    if c = '\n' ∧ '\n' ∈ rest.takeWhile isWS then
      match rest with
      | [] => false
      | d :: rest2 =>
        decide (d = '\n') && decide ('\n' ∉ rest2.takeWhile isWS) && nlOk rest2
    else nlOk rest

theorem nlOk_cons (c : Char) (rest : List Char) :
    nlOk (c :: rest) =
      if c = '\n' ∧ '\n' ∈ rest.takeWhile isWS then
        (match rest with
         | [] => false
         | d :: rest2 =>
           decide (d = '\n') && decide ('\n' ∉ rest2.takeWhile isWS) && nlOk rest2)
      else nlOk rest := by
  rw [nlOk.eq_def]

/-! ### Stage 1: carriage-return elimination -/

theorem not_mem_replCR (l : List Char) : '\r' ∉ replCR l := by
  simp only [replCR, List.mem_map, not_exists]
  rintro c ⟨-, hc⟩
  by_cases h : c = '\r' <;> simp [h] at hc

theorem replCRLF_eq_self {l : List Char} (h : '\r' ∉ l) : replCRLF l = l := by
  induction l using replCRLF.induct with
  | case1 => rfl
  | case2 c => rfl
  | case3 c d rest hcd ih =>
    exact absurd (hcd.1 ▸ List.mem_cons_self c (d :: rest)) h
  | case4 c d rest hcd ih =>
    simp only [replCRLF, if_neg hcd]
    rw [ih (fun hm => h (List.mem_cons_of_mem c hm))]

theorem isST_iff {c : Char} : isST c = true ↔ c = ' ' ∨ c = '\t' := by
  simp [isST]

theorem replCR_eq_self {l : List Char} (h : '\r' ∉ l) : replCR l = l := by
  induction l with
  | nil => rfl
  | cons c rest ih =>
    simp only [List.mem_cons, not_or] at h
    have hr : replCR rest = rest := ih h.2
    simp only [replCR, List.map_cons] at hr ⊢
    rw [if_neg (fun hc => h.1 hc.symm), hr]

/-! ### Stage 2: horizontal-whitespace collapsing -/

theorem dropWhile_head_not {p : Char → Bool} {l : List Char} {c : Char}
    (h : (l.dropWhile p).head? = some c) : p c = false := by
  induction l with
  | nil => simp [List.dropWhile] at h
  | cons d t ih =>
    by_cases hd : p d
    · rw [List.dropWhile_cons_of_pos hd] at h
      exact ih h
    · rw [List.dropWhile_cons_of_neg hd] at h
      simp only [List.head?_cons, Option.some.injEq] at h
      subst h
      exact Bool.eq_false_iff.mpr hd

theorem mem_collapseST {c : Char} {l : List Char} (h : c ∈ collapseST l) :
    c = ' ' ∨ c ∈ l := by
  induction l using collapseST.induct with
  | case1 => simp [collapseST] at h
  | case2 d rest hst ih =>
    simp only [collapseST, if_pos hst, List.mem_cons] at h
    rcases h with h | h
    · exact Or.inl h
    · rcases ih h with h' | h'
      · exact Or.inl h'
      · exact Or.inr (List.mem_cons_of_mem d
          ((List.dropWhile_suffix isST).sublist.subset h'))
  | case3 d rest hst ih =>
    simp only [collapseST, if_neg hst, List.mem_cons] at h
    rcases h with h | h
    · exact Or.inr (h ▸ List.mem_cons_self d rest)
    · rcases ih h with h' | h'
      · exact Or.inl h'
      · exact Or.inr (List.mem_cons_of_mem d h')

theorem not_tab_collapseST (l : List Char) : '\t' ∉ collapseST l := by
  induction l using collapseST.induct with
  | case1 => simp [collapseST]
  | case2 d rest hst ih =>
    simp only [collapseST, if_pos hst, List.mem_cons, not_or]
    exact ⟨by decide, ih⟩
  | case3 d rest hst ih =>
    simp only [collapseST, if_neg hst, List.mem_cons, not_or]
    refine ⟨fun hc => hst ?_, ih⟩
    rw [← hc]
    decide

theorem head?_collapseST_of_not_st {l : List Char} {d : Char}
    (hd : l.head? = some d) (hst : ¬ isST d = true) :
    (collapseST l).head? = some d := by
  cases l with
  | nil => simp at hd
  | cons c rest =>
    simp only [List.head?_cons, Option.some.injEq] at hd
    subst hd
    simp [collapseST, if_neg hst]

theorem STsep_collapseST (l : List Char) : STsep (collapseST l) := by
  induction l using collapseST.induct with
  | case1 => simp [collapseST, STsep]
  | case2 d rest hst ih =>
    simp only [collapseST, if_pos hst]
    refine List.chain'_cons'.mpr ⟨?_, ih⟩
    intro y hy
    rcases hr : (rest.dropWhile isST) with _ | ⟨e, t⟩
    · rw [hr] at hy; simp [collapseST] at hy
    · have he : isST e = false := by
        have := dropWhile_head_not (p := isST) (l := rest) (c := e) (by rw [hr]; rfl)
        exact this
      rw [hr] at hy
      rw [head?_collapseST_of_not_st (l := e :: t) rfl (by simp [he])] at hy
      simp only [Option.mem_def, Option.some.injEq] at hy
      subst hy
      simp [he]
  | case3 d rest hst ih =>
    simp only [collapseST, if_neg hst]
    refine List.chain'_cons'.mpr ⟨?_, ih⟩
    intro y _
    simp [Bool.eq_false_iff.mpr hst]

theorem collapseST_eq_self {l : List Char} (htab : '\t' ∉ l) (hsep : STsep l) :
    collapseST l = l := by
  induction l with
  | nil => simp [collapseST]
  | cons c rest ih =>
    simp only [List.mem_cons, not_or] at htab
    by_cases hst : isST c = true
    · have hc : c = ' ' := by
        rcases isST_iff.mp hst with h | h
        · exact h
        · exact absurd h (fun he => htab.1 he.symm)
      have hdrop : rest.dropWhile isST = rest := by
        cases rest with
        | nil => rfl
        | cons d t =>
          have hrel := List.chain'_cons.mp hsep |>.1
          rw [hst] at hrel
          simp only [Bool.true_and] at hrel
          exact List.dropWhile_cons_of_neg (by simp [hrel])
      simp only [collapseST, if_pos hst, hdrop]
      rw [ih htab.2 (List.Chain'.tail hsep), hc]
    · simp only [collapseST, if_neg hst]
      rw [ih htab.2 (List.Chain'.tail hsep)]

/-! ### Stage 3: blank-line collapsing -/

theorem dropThru_suffix (l : List Char) : dropThru l <:+ l := by
  induction l with
  | nil => exact List.suffix_refl []
  | cons c rest ih =>
    by_cases hws : isWS c
    · by_cases hnl : c = '\n' ∧ '\n' ∉ rest.takeWhile isWS
      · simp only [dropThru, if_pos hws, if_pos hnl]
        exact List.suffix_cons c rest
      · simp only [dropThru, if_pos hws, if_neg hnl]
        exact ih.trans (List.suffix_cons c rest)
    · simp only [dropThru, if_neg hws]
      exact List.suffix_refl _

theorem dropThru_cons_nl {t : List Char} (h : '\n' ∉ t.takeWhile isWS) :
    dropThru ('\n' :: t) = t := by
  simp [dropThru, isWS, h]

theorem mem_collapseNL {c : Char} {l : List Char} (h : c ∈ collapseNL l) :
    c = '\n' ∨ c ∈ l := by
  induction l using collapseNL.induct with
  | case1 => simp [collapseNL] at h
  | case2 d rest hcond ih =>
    simp only [collapseNL, if_pos hcond, List.mem_cons] at h
    rcases h with h | h | h
    · exact Or.inl h
    · exact Or.inl h
    · rcases ih h with h' | h'
      · exact Or.inl h'
      · exact Or.inr (List.mem_cons_of_mem d ((dropThru_suffix rest).sublist.subset h'))
  | case3 d rest hcond ih =>
    simp only [collapseNL, if_neg hcond, List.mem_cons] at h
    rcases h with h | h
    · exact Or.inr (h ▸ List.mem_cons_self d rest)
    · rcases ih h with h' | h'
      · exact Or.inl h'
      · exact Or.inr (List.mem_cons_of_mem d h')

theorem head?_collapseNL (l : List Char) : (collapseNL l).head? = l.head? := by
  cases l with
  | nil => simp [collapseNL]
  | cons c rest =>
    by_cases hcond : c = '\n' ∧ '\n' ∈ rest.takeWhile isWS
    · obtain ⟨rfl, hmem⟩ := hcond
      simp [collapseNL, hmem]
    · simp [collapseNL, if_neg hcond]

/-- The leading whitespace run of `dropThru l` contains no newline
(when `dropThru` was invoked legitimately). -/
theorem not_nl_takeWhile_dropThru {l : List Char}
    (h : '\n' ∈ l.takeWhile isWS) : '\n' ∉ (dropThru l).takeWhile isWS := by
  induction l with
  | nil => simp [List.takeWhile] at h
  | cons c rest ih =>
    by_cases hws : isWS c
    · rw [List.takeWhile_cons_of_pos hws, List.mem_cons] at h
      by_cases hnl : c = '\n' ∧ '\n' ∉ rest.takeWhile isWS
      · simp only [dropThru, if_pos hws, if_pos hnl]
        exact hnl.2
      · simp only [dropThru, if_pos hws, if_neg hnl]
        apply ih
        rcases h with h | h
        · by_contra hn
          exact hnl ⟨h.symm, hn⟩
        · exact h
    · rw [List.takeWhile_cons_of_neg hws] at h
      simp at h

/-- `collapseNL` does not create a newline inside a leading whitespace
run that had none. -/
theorem not_nl_takeWhile_collapseNL {l : List Char}
    (h : '\n' ∉ l.takeWhile isWS) : '\n' ∉ (collapseNL l).takeWhile isWS := by
  induction l with
  | nil => simp [collapseNL, List.takeWhile]
  | cons c rest ih =>
    by_cases hws : isWS c
    · rw [List.takeWhile_cons_of_pos hws, List.mem_cons, not_or] at h
      have hcond : ¬ (c = '\n' ∧ '\n' ∈ rest.takeWhile isWS) := by
        rintro ⟨rfl, -⟩
        exact h.1 rfl
      simp only [collapseNL, if_neg hcond]
      rw [List.takeWhile_cons_of_pos hws, List.mem_cons, not_or]
      exact ⟨h.1, ih h.2⟩
    · have hcond : ¬ (c = '\n' ∧ '\n' ∈ rest.takeWhile isWS) := by
        rintro ⟨rfl, -⟩
        exact hws (by decide)
      simp only [collapseNL, if_neg hcond]
      rw [List.takeWhile_cons_of_neg hws]
      simp

theorem STsep_collapseNL {l : List Char} (h : STsep l) : STsep (collapseNL l) := by
  induction l using collapseNL.induct with
  | case1 => simp [collapseNL, STsep]
  | case2 d rest hcond ih =>
    simp only [collapseNL, if_pos hcond]
    refine List.chain'_cons.mpr ⟨by decide, List.chain'_cons'.mpr
      ⟨fun y _ => by simp [isST], ?_⟩⟩
    exact ih (h.suffix ((dropThru_suffix rest).trans (List.suffix_cons d rest)))
  | case3 d rest hcond ih =>
    simp only [collapseNL, if_neg hcond]
    refine List.chain'_cons'.mpr ⟨?_, ih (List.Chain'.tail h)⟩
    intro y hy
    rw [head?_collapseNL] at hy
    exact (List.chain'_cons'.mp h).1 y hy

theorem collapseNL_eq_self {l : List Char} (h : nlOk l = true) :
    collapseNL l = l := by
  induction l using collapseNL.induct with
  | case1 => simp [collapseNL]
  | case2 d rest hcond ih =>
    rw [nlOk_cons, if_pos hcond] at h
    cases rest with
    | nil => simp [List.takeWhile] at hcond
    | cons e rest2 =>
      simp only [Bool.and_eq_true, decide_eq_true_eq] at h
      obtain ⟨he, hnotin, hok⟩ :
          e = '\n' ∧ '\n' ∉ rest2.takeWhile isWS ∧ nlOk rest2 = true := by
        tauto
      subst he
      have hdt : dropThru ('\n' :: rest2) = rest2 := dropThru_cons_nl hnotin
      simp only [collapseNL, if_pos hcond, hdt]
      have hih := hdt ▸ ih
      rw [hih hok, hcond.1]
  | case3 d rest hcond ih =>
    rw [nlOk_cons, if_neg hcond] at h
    simp only [collapseNL, if_neg hcond]
    rw [ih h]

theorem nlOk_collapseNL (l : List Char) : nlOk (collapseNL l) = true := by
  induction l using collapseNL.induct with
  | case1 => simp [collapseNL, nlOk]
  | case2 d rest hcond ih =>
    simp only [collapseNL, if_pos hcond]
    rw [nlOk_cons]
    rw [if_pos ⟨rfl, by
      rw [List.takeWhile_cons_of_pos (by decide : isWS '\n' = true)]
      exact List.mem_cons_self _ _⟩]
    simp [not_nl_takeWhile_collapseNL (not_nl_takeWhile_dropThru hcond.2), ih]
  | case3 d rest hcond ih =>
    simp only [collapseNL, if_neg hcond]
    rw [nlOk_cons]
    by_cases hd : d = '\n'
    · subst hd
      have hrest : '\n' ∉ rest.takeWhile isWS := fun hm => hcond ⟨rfl, hm⟩
      rw [if_neg (fun hc : _ ∧ _ => not_nl_takeWhile_collapseNL hrest hc.2)]
      exact ih
    · rw [if_neg (fun hc : _ ∧ _ => hd hc.1)]
      exact ih

/-! ### `nlOk` is closed under prefixes and suffixes -/

theorem takeWhile_prefix_append (p : Char → Bool) (l t : List Char) :
    l.takeWhile p <+: (l ++ t).takeWhile p := by
  induction l with
  | nil => simp
  | cons c rest ih =>
    by_cases h : p c
    · rw [List.cons_append, List.takeWhile_cons_of_pos h, List.takeWhile_cons_of_pos h]
      exact List.cons_prefix_cons.mpr ⟨rfl, ih⟩
    · rw [List.cons_append, List.takeWhile_cons_of_neg h, List.takeWhile_cons_of_neg h]

theorem mem_takeWhile_append {p : Char → Bool} {l t : List Char}
    (h : '\n' ∈ l.takeWhile p) : '\n' ∈ ((l ++ t).takeWhile p) :=
  (takeWhile_prefix_append p l t).subset h

theorem not_mem_takeWhile_append {p : Char → Bool} {l t : List Char}
    (h : '\n' ∉ ((l ++ t).takeWhile p)) : '\n' ∉ l.takeWhile p :=
  fun hm => h (mem_takeWhile_append hm)

theorem nlOk_tail {c : Char} {rest : List Char} (h : nlOk (c :: rest) = true) :
    nlOk rest = true := by
  rw [nlOk_cons] at h
  by_cases hcond : c = '\n' ∧ '\n' ∈ rest.takeWhile isWS
  · rw [if_pos hcond] at h
    cases rest with
    | nil => simp at h
    | cons d rest2 =>
      simp only [Bool.and_eq_true, decide_eq_true_eq] at h
      obtain ⟨hd, hni, hok⟩ :
          d = '\n' ∧ '\n' ∉ rest2.takeWhile isWS ∧ nlOk rest2 = true := by tauto
      subst hd
      rw [nlOk_cons, if_neg (fun hc : _ ∧ _ => hni hc.2)]
      exact hok
  · rw [if_neg hcond] at h
    exact h

theorem nlOk_append_right {t l : List Char} (h : nlOk (t ++ l) = true) :
    nlOk l = true := by
  induction t with
  | nil => exact h
  | cons c u ih => exact ih (nlOk_tail h)

theorem nlOk_append_left : ∀ (l t : List Char), nlOk (l ++ t) = true → nlOk l = true := by
  intro l
  induction l using nlOk.induct with
  | case1 => intro t _; rfl
  | case2 c hcond =>
    simp [List.takeWhile] at hcond
  | case3 c d rest2 hcond ih =>
    intro t h
    rw [List.cons_append, nlOk_cons] at h
    have hcondF : c = '\n' ∧ '\n' ∈ ((d :: rest2) ++ t).takeWhile isWS :=
      ⟨hcond.1, mem_takeWhile_append hcond.2⟩
    rw [if_pos hcondF] at h
    simp only [List.cons_append, Bool.and_eq_true, decide_eq_true_eq] at h
    obtain ⟨hd, hni, hok⟩ :
        d = '\n' ∧ '\n' ∉ (rest2 ++ t).takeWhile isWS ∧ nlOk (rest2 ++ t) = true := by
      tauto
    rw [nlOk_cons, if_pos hcond]
    simp only [Bool.and_eq_true, decide_eq_true_eq]
    refine ⟨⟨hd, not_mem_takeWhile_append hni⟩, ih t hok⟩
  | case4 c rest hcond ih =>
    intro t h
    rw [List.cons_append, nlOk_cons] at h
    rw [nlOk_cons, if_neg hcond]
    by_cases hcondF : c = '\n' ∧ '\n' ∈ (rest ++ t).takeWhile isWS
    · have hni : '\n' ∉ rest.takeWhile isWS := by
        intro hm
        exact hcond ⟨hcondF.1, hm⟩
      cases rest with
      | nil => rfl
      | cons d rest2 =>
        rw [if_pos hcondF] at h
        simp only [List.cons_append, Bool.and_eq_true, decide_eq_true_eq] at h
        have hd : d = '\n' := by tauto
        exfalso
        apply hni
        rw [hd, List.takeWhile_cons_of_pos (by decide : isWS '\n' = true)]
        exact List.mem_cons_self _ _
    · rw [if_neg hcondF] at h
      exact ih t h

theorem nlOk_of_suffix {l m : List Char} (h : l <:+ m) (hm : nlOk m = true) :
    nlOk l = true := by
  obtain ⟨t, rfl⟩ := h
  exact nlOk_append_right hm

theorem nlOk_prefix_closed {l m : List Char} (h : l <+: m) (hm : nlOk m = true) :
    nlOk l = true := by
  obtain ⟨t, rfl⟩ := h
  exact nlOk_append_left l t hm

/-! ### Stage 4: stripping -/

theorem dropWhile_eq_self_of_head {p : Char → Bool} {l : List Char}
    (h : ∀ c, l.head? = some c → p c = false) : l.dropWhile p = l := by
  cases l with
  | nil => rfl
  | cons c rest => exact List.dropWhile_cons_of_neg (by simp [h c rfl])

theorem pstrip_isPrefix_dropWhile (l : List Char) : pstrip l <+: l.dropWhile isWS := by
  unfold pstrip
  rw [← List.reverse_suffix, List.reverse_reverse]
  exact List.dropWhile_suffix isWS

theorem pstrip_isInfix_self (l : List Char) : pstrip l <:+: l :=
  (pstrip_isPrefix_dropWhile l).isInfix.trans (List.dropWhile_suffix isWS).isInfix

theorem head?_pstrip_not_ws {l : List Char} {c : Char}
    (h : (pstrip l).head? = some c) : isWS c = false := by
  obtain ⟨t, ht⟩ := pstrip_isPrefix_dropWhile l
  cases hp : pstrip l with
  | nil => rw [hp] at h; simp at h
  | cons d u =>
    rw [hp] at h ht
    simp only [List.head?_cons, Option.some.injEq] at h
    subst h
    exact dropWhile_head_not (l := l) (by rw [← ht]; rfl)

theorem pstrip_idem (l : List Char) : pstrip (pstrip l) = pstrip l := by
  have h1 : (pstrip l).dropWhile isWS = pstrip l :=
    dropWhile_eq_self_of_head (fun c hc => head?_pstrip_not_ws hc)
  show (((pstrip l).dropWhile isWS).reverse.dropWhile isWS).reverse = pstrip l
  rw [h1]
  have h2 : (pstrip l).reverse = ((l.dropWhile isWS).reverse).dropWhile isWS := by
    show ((((l.dropWhile isWS).reverse).dropWhile isWS).reverse).reverse = _
    rw [List.reverse_reverse]
  rw [h2]
  rw [dropWhile_eq_self_of_head (fun c hc => dropWhile_head_not hc)]
  rw [← h2, List.reverse_reverse]

/-! ### Idempotence of the Body Normalizer -/

theorem normalizeL_invariants (l : List Char) :
    '\r' ∉ normalizeL l ∧ '\t' ∉ normalizeL l ∧ STsep (normalizeL l) ∧
      nlOk (normalizeL l) = true := by
  unfold normalizeL
  have hsub := (pstrip_isInfix_self (collapseNL (collapseST (replCR (replCRLF l))))).sublist
  refine ⟨?_, ?_, ?_, ?_⟩
  · intro hm
    rcases mem_collapseNL (hsub.subset hm) with h | h
    · exact absurd h (by decide)
    · rcases mem_collapseST h with h' | h'
      · exact absurd h' (by decide)
      · exact not_mem_replCR _ h'
  · intro hm
    rcases mem_collapseNL (hsub.subset hm) with h | h
    · exact absurd h (by decide)
    · exact not_tab_collapseST _ h
  · exact List.Chain'.infix (STsep_collapseNL (STsep_collapseST _)) (pstrip_isInfix_self _)
  · exact nlOk_prefix_closed (pstrip_isPrefix_dropWhile _)
      (nlOk_of_suffix (List.dropWhile_suffix isWS) (nlOk_collapseNL _))

theorem normalizeL_eq_self {l : List Char} (hcr : '\r' ∉ l) (htab : '\t' ∉ l)
    (hst : STsep l) (hnl : nlOk l = true) (hps : pstrip l = l) :
    normalizeL l = l := by
  unfold normalizeL
  rw [replCRLF_eq_self hcr, replCR_eq_self hcr, collapseST_eq_self htab hst,
    collapseNL_eq_self hnl, hps]

theorem normalizeL_idem (l : List Char) :
    normalizeL (normalizeL l) = normalizeL l := by
  obtain ⟨h1, h2, h3, h4⟩ := normalizeL_invariants l
  exact normalizeL_eq_self h1 h2 h3 h4
    (pstrip_idem (collapseNL (collapseST (replCR (replCRLF l)))))

/-- **C5** (confirmed): the Body Normalizer `format_email_body` is
idempotent — for every input string `x`,
`format_email_body (format_email_body x) = format_email_body x`. -/
theorem C5_body_normalizer_idempotent (x : String) :
    format_email_body (format_email_body x) = format_email_body x := by
  simp only [format_email_body]
  exact congrArg String.mk (normalizeL_idem x.data)

/-! ## Structured Field Parser (`parse_analysis_field`, Parser_final_0501.py:43-76)

The numbered layout is
`re.findall(r"\d+\.\s*([\w\s]+):\s*(.*?)(?=\d+\.|$)", answer, re.DOTALL)`,
the plain fallback layout
`re.findall(r"([\w\s]+):\s*(.*?)(?=\n[\w\s]+:|$)", answer, re.DOTALL)`.
Both patterns are deterministic once Python's backtracking rules are
unfolded (`[\w\s]+` and `\d+` are followed by characters outside their own
class, so only the maximal run can match; the lazy `(.*?)` stops at the
first position where the lookahead matches, and `$` also matches just
before a final newline).  `re.findall` scans left to right and resumes
after each (non-empty) match. -/

/-- `\d+\.` matches at this position: head is a digit and the maximal
digit run is followed by `'.'` (only the maximal run can work, as `'.'`
is not a digit). -/
def digitDotAt : List Char → Bool
  | [] => false
  | c :: rest =>
    isDigitC c && decide (((c :: rest).dropWhile isDigitC).head? = some '.')

/-- The lazy value capture `(.*?)(?=\d+\.|$)` under `re.DOTALL`: consume
characters until `\d+\.` matches ahead, or end of text, or the position
just before a final `'\n'` (where `$` also matches).  Returns the capture
and the remaining text (the lookahead is not consumed). -/
def takeValue : List Char → List Char × List Char
  | [] => ([], [])
  | c :: rest =>
    if digitDotAt (c :: rest) then ([], c :: rest)
    else if c = '\n' ∧ rest = [] then ([], c :: rest)
    else
      let vr := takeValue rest
      (c :: vr.1, vr.2)

/-- Attempt to match one unit `\d+\.\s*([\w\s]+):\s*(.*?)(?=\d+\.|$)`
anchored at the start of `l`.  Returns `((key, value), rest)` where
`rest` is the text after the match.  The key capture is returned with its
leading whitespace (consumed by `\s*` in the real match); this is
immaterial because the caller strips it. -/
def matchNumberedAt (l : List Char) : Option ((List Char × List Char) × List Char) :=
  let ds := l.takeWhile isDigitC
  if ds.isEmpty then none
  else
    match l.drop ds.length with
    | c :: afterDot =>
      if c = '.' then
        let run := afterDot.takeWhile isWordSpace
        if run.isEmpty then none
        else
          match afterDot.drop run.length with
          | c2 :: afterColon =>
            if c2 = ':' then
              let vr := takeValue (afterColon.dropWhile isWS)
              some ((run, vr.1), vr.2)
            else none
          | [] => none
      else none
    | [] => none

/-- `re.findall` scan loop for the numbered layout, with fuel (the input
length plus one always suffices, as each step consumes at least one
character). -/
def findNumberedF : Nat → List Char → List (List Char × List Char)
  | 0, _ => []
  | fuel + 1, l =>
    match matchNumberedAt l with
    | some kvr => kvr.1 :: findNumberedF fuel kvr.2
    | none =>
      match l with
      | [] => []
      | _ :: rest => findNumberedF fuel rest

def findNumbered (l : List Char) : List (List Char × List Char) :=
  findNumberedF (l.length + 1) l

/-- The lookahead `\n[\w\s]+:` of the plain layout matches at this
position. -/
def plainLookaheadAt : List Char → Bool
  | [] => false
  | c :: u =>
    decide (c = '\n') && !(u.takeWhile isWordSpace).isEmpty
      && decide ((u.dropWhile isWordSpace).head? = some ':')

/-- The lazy value capture `(.*?)(?=\n[\w\s]+:|$)` under `re.DOTALL`. -/
def takeValuePlain : List Char → List Char × List Char
  | [] => ([], [])
  | c :: rest =>
    if plainLookaheadAt (c :: rest) then ([], c :: rest)
    else if c = '\n' ∧ rest = [] then ([], c :: rest)
    else
      let vr := takeValuePlain rest
      (c :: vr.1, vr.2)

/-- Attempt to match one unit `([\w\s]+):\s*(.*?)(?=\n[\w\s]+:|$)`
anchored at the start of `l`. -/
def matchPlainAt (l : List Char) : Option ((List Char × List Char) × List Char) :=
  let run := l.takeWhile isWordSpace
  if run.isEmpty then none
  else
    match l.drop run.length with
    | c :: afterColon =>
      if c = ':' then
        let vr := takeValuePlain (afterColon.dropWhile isWS)
        some ((run, vr.1), vr.2)
      else none
    | [] => none

/-- `re.findall` scan loop for the plain layout, with fuel. -/
def findPlainF : Nat → List Char → List (List Char × List Char)
  | 0, _ => []
  | fuel + 1, l =>
    match matchPlainAt l with
    | some kvr => kvr.1 :: findPlainF fuel kvr.2
    | none =>
      match l with
      | [] => []
      | _ :: rest => findPlainF fuel rest

def findPlain (l : List Char) : List (List Char × List Char) :=
  findPlainF (l.length + 1) l

/-- `key.strip().lower().replace(' ', '_')` (Parser_final_0501.py:64). -/
def clean_key (k : List Char) : String :=
  ⟨((pstrip k).map Char.toLower).map (fun c => if c = ' ' then '_' else c)⟩

/-- `value.strip()` (Parser_final_0501.py:65). -/
def clean_val (v : List Char) : String := ⟨pstrip v⟩

/-- Python dict assignment `parsed[key] = value`: overwrite in place if
the key exists, else append (insertion order preserved). -/
def dictInsert (d : List (String × String)) (k v : String) :
    List (String × String) :=
  if d.any (fun p => p.1 == k) then
    d.map (fun p => if p.1 == k then (k, v) else p)
  else d ++ [(k, v)]

/-- The `for key, value in matches: parsed[key_clean] = value.strip()`
loop of `parse_analysis_field`. -/
def buildParsed (ms : List (List Char × List Char)) : List (String × String) :=
  ms.foldl (fun d kv => dictInsert d (clean_key kv.1) (clean_val kv.2)) []

/-- The value stored under the `'answer'` key of the input dict: a string
or some non-string JSON value; `Option.none` models an absent key (or a
`None` value — `dict.get` returns `None` for both). -/
inductive AnswerVal where
  | str (s : String)
  | nonStr

structure AnalysisData where
  answer : Option AnswerVal

/-- `parse_analysis_field` (Parser_final_0501.py:43-76): numbered layout
first; if it produced at least one unit, use it exclusively; otherwise
fall back to the plain layout; a missing or non-string answer yields the
empty map. -/
def parse_analysis_field (data : AnalysisData) : List (String × String) :=
  match data.answer with
  | some (.str s) =>
    if (findNumbered s.data).isEmpty then buildParsed (findPlain s.data)
    else buildParsed (findNumbered s.data)
  | _ => []

set_option maxRecDepth 8000

/-- **C3** counterexample: on the spec's example answer string the
parser does *not* return `"Doc A, Sec 3.2"` for the citation field — the
lazy value capture stops at the digit-period sequence `"3.2"`, which
matches the `\d+\.` lookahead. -/
theorem C3_counterexample_citation_truncated :
    (parse_analysis_field ⟨some (.str "1. Classification: Suspicious activity detected 2. Category: Front Running 3. Explanation: text 4. Citation: Doc A, Sec 3.2")⟩).lookup
      "citation" ≠ some "Doc A, Sec 3.2" := by decide

/-- **C3** (amended): the Structured Field Parser on the answer string
`"1. Classification: Suspicious activity detected 2. Category: Front
Running 3. Explanation: text 4. Citation: Doc A, Sec 3.2"` returns the
four-entry map whose first three entries are as the spec states, but
whose citation value is `"Doc A, Sec"` — the trailing `"3.2"` is cut off
by the `\d+\.` value-boundary lookahead (the boundary ambiguity §4.5 of
the spec itself flags). -/
theorem C3_numbered_layout_example :
    parse_analysis_field ⟨some (.str "1. Classification: Suspicious activity detected 2. Category: Front Running 3. Explanation: text 4. Citation: Doc A, Sec 3.2")⟩ =
      [("classification", "Suspicious activity detected"),
       ("category", "Front Running"),
       ("explanation", "text"),
       ("citation", "Doc A, Sec")] := by decide

/-- **C9** (confirmed): if the numbered layout produces at least one
unit, the result of `parse_analysis_field` is built exclusively from the
numbered-layout matches; the plain layout is never consulted (the result
is a function of `findNumbered` alone). -/
theorem C9_numbered_layout_commits (d : AnalysisData) (s : String)
    (h1 : d.answer = some (.str s)) (h2 : findNumbered s.data ≠ []) :
    parse_analysis_field d = buildParsed (findNumbered s.data) := by
  rcases d with ⟨ans⟩
  cases h1
  simp only [parse_analysis_field]
  rw [if_neg (by simpa using h2)]

theorem C9_numbered_layout_commits_witness :
    (⟨some (.str "1. A: b")⟩ : AnalysisData).answer = some (.str "1. A: b") ∧
      findNumbered "1. A: b".data ≠ [] ∧
      parse_analysis_field ⟨some (.str "1. A: b")⟩ =
        buildParsed (findNumbered "1. A: b".data) :=
  ⟨rfl, by decide, C9_numbered_layout_commits ⟨some (.str "1. A: b")⟩ "1. A: b" rfl (by decide)⟩

/-- **C10** (confirmed): when the `'answer'` entry is absent or not a
string, `parse_analysis_field` returns the empty map (and, being total,
raises no exception), without attempting either grammar layout. -/
theorem C10_non_string_answer_empty (d : AnalysisData)
    (h : ∀ s : String, d.answer ≠ some (.str s)) :
    parse_analysis_field d = [] := by
  rcases d with ⟨ans⟩
  match ans with
  | none => rfl
  | some .nonStr => rfl
  | some (.str s) => exact absurd rfl (h s)

theorem C10_non_string_answer_empty_witness :
    (∀ s : String, (⟨none⟩ : AnalysisData).answer ≠ some (.str s)) ∧
      parse_analysis_field ⟨none⟩ = [] :=
  ⟨(fun s h => by cases h),
   C10_non_string_answer_empty ⟨none⟩ (fun s h => by cases h)⟩

/-! ## Thread Splitter (`parse_email`, parser_emailthread.py:69-77)

`if thread_delimiter in formatted_body:` splits on every occurrence
(Python `str.split`), strips each part and discards empty parts; else the
single formatted string is returned. -/

def pstripS (s : String) : String := ⟨pstrip s.data⟩

/-- Index of the first occurrence of `sep` in `l` (`none` when `sep` does
not occur); models both Python's `in` test and the scan of `str.split`. -/
def findOcc (sep : List Char) : List Char → Option Nat
  | [] => none
  | c :: rest =>
    if sep.isPrefixOf (c :: rest) then some 0
    else (findOcc sep rest).map (· + 1)

/-- Python `str.split(sep)` for non-empty `sep`: cut at each leftmost
non-overlapping occurrence.  Fuelled for computability; `l.length + 1`
steps always suffice because each cut consumes at least one character. -/
def splitOnF (sep : List Char) : Nat → List Char → List (List Char)
  | 0, l => [l]
  | fuel + 1, l =>
    match findOcc sep l with
    | none => [l]
    | some i => l.take i :: splitOnF sep fuel (l.drop (i + sep.length))

def splitOn (sep l : List Char) : List (List Char) :=
  splitOnF sep (l.length + 1) l

def thread_delimiter : String := "-----Original Message-----"

/-- The body result of parser_emailthread.py's `parse_email`: a single
normalized string or a list of thread segments. -/
inductive BodyResult where
  | single (s : String)
  | parts (l : List String)
deriving DecidableEq

/-- parser_emailthread.py:69-77: split the formatted body on the thread
delimiter when present (stripping segments and discarding empty ones),
otherwise return the single-string form unchanged. -/
def threadSplit (formatted : String) : BodyResult :=
  if (findOcc thread_delimiter.data formatted.data).isSome then
    .parts (((splitOn thread_delimiter.data formatted.data).map
      (fun p => pstripS ⟨p⟩)).filter (fun s => !(s == "")))
  else .single formatted

/-- **C6** (confirmed): the Thread Splitter on the normalized body
`"Hi\n-----Original Message-----\nOlder text"` yields the ordered
segments `["Hi", "Older text"]`, and on every body in which the
delimiter does not occur it returns the body unchanged in single-string
form. -/
theorem C6_thread_splitter (body : String)
    (h : findOcc thread_delimiter.data body.data = none) :
    threadSplit "Hi\n-----Original Message-----\nOlder text" =
        .parts ["Hi", "Older text"] ∧
      threadSplit body = .single body := by
  refine ⟨by decide, ?_⟩
  simp [threadSplit, h]

theorem C6_thread_splitter_witness :
    findOcc thread_delimiter.data "Hello there".data = none ∧
      (threadSplit "Hi\n-----Original Message-----\nOlder text" =
          .parts ["Hi", "Older text"] ∧
        threadSplit "Hello there" = .single "Hello there") :=
  ⟨by decide, C6_thread_splitter "Hello there" (by decide)⟩

/-! ## Container Walker (`parse_msg` / `parse_email`, Parser_final_0501.py:134-270)

The `extract_msg` message object and the attachment payloads handled by
the external document libraries are modelled as an inductive tree.  The
model mirrors the source's control flow faithfully, in particular:

* `msg.sender` / `msg.to` / `msg.cc` may be `None` and are stored in the
  metadata dict *unconverted* (only `Date` is coerced to a string);
* the metadata dict has exactly the keys `From, To, Cc, Bcc, Date`;
* per-attachment extraction happens inside `try/except` (lines 183-187
  etc.), so an extractor exception only drops that attachment, but the
  temp-file staging `tmpf.write(att.data)` (lines 180-182) happens
  *outside* the `try`, so an exception from `att.data` propagates out of
  `parse_msg`;
* the nested-container branch (lines 230-243) wraps everything including
  the recursive `parse_msg` call in `try/except`, so nested failures are
  dropped, and there is no depth counter of any kind;
* `PdfReader` / `Document` / `Presentation` / `load_workbook` raise on a
  payload that is not a well-formed document of their format (in
  particular on a zero-byte payload), modelled by the extractors
  returning an error on any payload of the wrong shape. -/

/-- A header value as stored by `extract_msg`: `None` or a string. -/
inductive PyVal where
  | none
  | pstr (s : String)
deriving DecidableEq

/-- `msg.date`: a `datetime.datetime` (carrying the string that
`isoformat()` produces), a plain string, or `None`. -/
inductive PyDate where
  | dt (iso : String)
  | strv (s : String)
  | noneD
deriving DecidableEq

mutual
/-- An `extract_msg.Message`: headers, optional plain and HTML bodies,
and the attachment list. -/
inductive MsgFile where
  | mk (sender msgTo cc : PyVal) (date : PyDate)
      (body htmlBody : Option String) (atts : List Attachment)

/-- One attachment: `getFilename()` result (None becomes `""` in the
walker) and its data. -/
inductive Attachment where
  | mk (filename : Option String) (data : AttData)

/-- Result of accessing `att.data`: raises, or yields payload bytes. -/
inductive AttData where
  | raiseOnAccess
  | bytes (p : Payload)

/-- What the staged bytes are, as seen by the document libraries:
a well-formed document of one of the four kinds, an embedded container,
or bytes none of the libraries can open (e.g. a zero-byte payload). -/
inductive Payload where
  | pdfDoc (pages : List (Option String))
  | docxDoc (paras : List String)
  | pptxDoc (slides : List (List (Option String)))
  | xlsxDoc (rows : List (List (Option String)))
  | msgDoc (m : MsgFile)
  | rawBytes
end

structure ExtractedDoc where
  filename : String
  content : String
deriving DecidableEq

/-- The dict returned by `parse_msg`.  A bucket key is present in the
Python dict iff the corresponding list here is non-empty
(`if pdf_list: result['pdf_attachments'] = pdf_list`, lines 245-254). -/
inductive ParsedMessage where
  | mk (metadata : List (String × PyVal)) (body : String)
      (pdf_attachments docx_attachments pptx_attachments excel_attachments :
        List ExtractedDoc)
      (nested_emails : List ParsedMessage)

def ParsedMessage.metadata : ParsedMessage → List (String × PyVal)
  | .mk m _ _ _ _ _ _ => m

def ParsedMessage.body : ParsedMessage → String
  | .mk _ b _ _ _ _ _ => b

def ParsedMessage.pdf_attachments : ParsedMessage → List ExtractedDoc
  | .mk _ _ p _ _ _ _ => p

def ParsedMessage.docx_attachments : ParsedMessage → List ExtractedDoc
  | .mk _ _ _ d _ _ _ => d

def ParsedMessage.pptx_attachments : ParsedMessage → List ExtractedDoc
  | .mk _ _ _ _ p _ _ => p

def ParsedMessage.excel_attachments : ParsedMessage → List ExtractedDoc
  | .mk _ _ _ _ _ x _ => x

def ParsedMessage.nested_emails : ParsedMessage → List ParsedMessage
  | .mk _ _ _ _ _ _ n => n

/-- Exceptions that can escape `parse_msg` / `parse_email`. -/
inductive PyErr where
  | unsupportedFormat
  | containerOpenError
  | attachmentDataError
deriving DecidableEq

inductive ExtractErr where
  | openFailure
deriving DecidableEq

/-- The text `extract_pdf_text` builds from a readable PDF: pages whose
`extract_text()` was truthy, joined by newlines, stripped (lines 83-88). -/
def pdfJoin (pages : List (Option String)) : String :=
  pstripS (String.intercalate "\n" (pages.filterMap (fun t =>
    match t with
    | some s => if s = "" then Option.none else some s
    | Option.none => Option.none)))

/-- `extract_pdf_text` (Parser_final_0501.py:79-90): `PdfReader` raises
on anything that is not a well-formed PDF (zero-byte payloads included);
no exception handling inside the extractor. -/
def extract_pdf_text : Payload → Except ExtractErr String
  | .pdfDoc pages => .ok (pdfJoin pages)
  | _ => .error .openFailure

/-- Non-empty paragraph texts joined by newlines, stripped (lines 96-98). -/
def docxJoin (paras : List String) : String :=
  pstripS (String.intercalate "\n" (paras.filter (fun s => !(s == ""))))

/-- `extract_docx_text` (Parser_final_0501.py:93-100). -/
def extract_docx_text : Payload → Except ExtractErr String
  | .docxDoc paras => .ok (docxJoin paras)
  | _ => .error .openFailure

/-- For each slide, each shape exposing text contributes its stripped
text when non-empty (lines 106-114). -/
def pptxJoin (slides : List (List (Option String))) : String :=
  pstripS (String.intercalate "\n"
    ((slides.foldr (fun sl acc => sl ++ acc) []).filterMap (fun sh =>
      match sh with
      | some t =>
        let s := pstripS t
        if s = "" then Option.none else some s
      | Option.none => Option.none)))

/-- `extract_pptx_text` (Parser_final_0501.py:103-116). -/
def extract_pptx_text : Payload → Except ExtractErr String
  | .pptxDoc slides => .ok (pptxJoin slides)
  | _ => .error .openFailure

/-- Rows with at least one non-`None` cell contribute their stringified
cells joined by tabs (lines 123-129). -/
def xlsxJoin (rows : List (List (Option String))) : String :=
  pstripS (String.intercalate "\n" (rows.filterMap (fun row =>
    let cells := row.filterMap id
    if cells.isEmpty then Option.none
    else some (String.intercalate "\t" cells))))

/-- `extract_excel_text` (Parser_final_0501.py:119-131). -/
def extract_excel_text : Payload → Except ExtractErr String
  | .xlsxDoc rows => .ok (xlsxJoin rows)
  | _ => .error .openFailure

/-- `filename.lower()` (ASCII). -/
def lowerS (s : String) : String := ⟨s.data.map Char.toLower⟩

/-- Python `str.endswith`. -/
def pyEndsWith (s suffix : String) : Bool := suffix.data.isSuffixOf s.data

/-- Date coercion (Parser_final_0501.py:152-157): `isoformat()` for
datetimes, `str(...)` otherwise (`str(None) = "None"`). -/
def dateString : PyDate → String
  | .dt iso => iso
  | .strv s => s
  | .noneD => "None"

/-- Python `a or b` on an optional string (`None` and `""` are falsy). -/
def pyOrS : Option String → String → String
  | some s, b => if s = "" then b else s
  | Option.none, b => b

/-- The metadata dict built at lines 145-157: keys `From, To, Cc, Bcc,
Date` only; `From` / `To` / `Cc` stored unconverted (possibly `None`),
`Bcc` always `""`, `Date` coerced to a string. -/
def metadataOf (sender msgTo cc : PyVal) (date : PyDate) :
    List (String × PyVal) :=
  [("From", sender), ("To", msgTo), ("Cc", cc),
   ("Bcc", .pstr ""), ("Date", .pstr (dateString date))]

/-- `raw_body = msg.body or getattr(msg, "htmlBody", "") or ""` followed
by `format_email_body(raw_body) if raw_body else ""` (lines 160-161). -/
def bodyOf (body htmlBody : Option String) : String :=
  let raw := pyOrS body (pyOrS htmlBody "")
  if raw = "" then "" else format_email_body raw

/-- Per-attachment outcome inside the walker loop. -/
inductive AttOutcome where
  | skip
  | pdfOut (d : ExtractedDoc)
  | docxOut (d : ExtractedDoc)
  | pptxOut (d : ExtractedDoc)
  | xlsxOut (d : ExtractedDoc)
  | nested (pm : ParsedMessage)

/-- The format kind the walker's `if`/`elif` chain assigns to an
attachment. -/
inductive ExtKind where
  | pdf
  | docx
  | pptx
  | xlsx
  | msg
  | other
deriving DecidableEq

/-- The dispatch chain of lines 179-243, in source order:
`filename.lower().endswith('.pdf')`, `'.docx'`, `'.pptx'`,
`('.xlsx', '.xls')`, `'.msg'`, else skip. -/
def classify (filename : String) : ExtKind :=
  if pyEndsWith (lowerS filename) ".pdf" then .pdf
  else if pyEndsWith (lowerS filename) ".docx" then .docx
  else if pyEndsWith (lowerS filename) ".pptx" then .pptx
  else if pyEndsWith (lowerS filename) ".xlsx" || pyEndsWith (lowerS filename) ".xls" then .xlsx
  else if pyEndsWith (lowerS filename) ".msg" then .msg
  else .other

/-- The body of the attachment loop (lines 174-243) for one attachment,
factored out of the recursion; `nestedResult` is the outcome of the
recursive `parse_msg` call on an embedded container's bytes
(`Option.none` when the payload is not an embedded container — then
`att.save`/`parse_msg` raises inside the `try` and the branch is
dropped, line 240). -/
def stepResult (filename : String) (data : AttData)
    (nestedResult : Option (Except PyErr ParsedMessage)) :
    Except PyErr AttOutcome :=
  match classify filename with
  | .pdf =>
    match data with
    | .raiseOnAccess => .error .attachmentDataError
    | .bytes p =>
      match extract_pdf_text p with
      | .ok t => .ok (.pdfOut ⟨filename, t⟩)
      | .error _ => .ok .skip
  | .docx =>
    match data with
    | .raiseOnAccess => .error .attachmentDataError
    | .bytes p =>
      match extract_docx_text p with
      | .ok t => .ok (.docxOut ⟨filename, t⟩)
      | .error _ => .ok .skip
  | .pptx =>
    match data with
    | .raiseOnAccess => .error .attachmentDataError
    | .bytes p =>
      match extract_pptx_text p with
      | .ok t => .ok (.pptxOut ⟨filename, t⟩)
      | .error _ => .ok .skip
  | .xlsx =>
    match data with
    | .raiseOnAccess => .error .attachmentDataError
    | .bytes p =>
      match extract_excel_text p with
      | .ok t => .ok (.xlsxOut ⟨filename, t⟩)
      | .error _ => .ok .skip
  | .msg =>
    match nestedResult with
    | some (.ok pm) => .ok (.nested pm)
    | some (.error _) => .ok .skip
    | Option.none => .ok .skip
  | .other => .ok .skip

/-- Sequencing of one step with the rest of the loop: a step error
(attachment staging failure) aborts `parse_msg`; otherwise the outcome is
prepended. -/
def combineStep (step : Except PyErr AttOutcome)
    (rest : Except PyErr (List AttOutcome)) :
    Except PyErr (List AttOutcome) :=
  match step with
  | .error e => .error e
  | .ok o =>
    match rest with
    | .error e => .error e
    | .ok os => .ok (o :: os)

/-- Selection of the `pdf_list` bucket from the loop outcomes. -/
def pdfSel : AttOutcome → Option ExtractedDoc
  | .pdfOut d => some d
  | _ => Option.none

/-- Selection of the `docx_list` bucket from the loop outcomes. -/
def docxSel : AttOutcome → Option ExtractedDoc
  | .docxOut d => some d
  | _ => Option.none

/-- Selection of the `pptx_list` bucket from the loop outcomes. -/
def pptxSel : AttOutcome → Option ExtractedDoc
  | .pptxOut d => some d
  | _ => Option.none

/-- Selection of the `xlsx_list` bucket from the loop outcomes. -/
def xlsxSel : AttOutcome → Option ExtractedDoc
  | .xlsxOut d => some d
  | _ => Option.none

/-- Selection of the `nested_list` bucket from the loop outcomes. -/
def nestedSel : AttOutcome → Option ParsedMessage
  | .nested pm => some pm
  | _ => Option.none

mutual
/-- `parse_msg` (Parser_final_0501.py:134-262): metadata, body, then the
attachment loop; the only exceptions that escape are those raised while
staging a recognized document attachment's bytes (`tmpf.write(att.data)`
is outside the per-attachment `try`). -/
def parse_msg : MsgFile → Except PyErr ParsedMessage
  | .mk sender msgTo cc date body htmlBody atts =>
    match processAtts atts with
    | .error e => .error e
    | .ok outs =>
      .ok (.mk (metadataOf sender msgTo cc date) (bodyOf body htmlBody)
        (outs.filterMap pdfSel) (outs.filterMap docxSel)
        (outs.filterMap pptxSel) (outs.filterMap xlsxSel)
        (outs.filterMap nestedSel))

/-- The recursive `parse_msg` call of line 238, made exactly when the
attachment's bytes are an embedded container. -/
def nestedOf : AttData → Option (Except PyErr ParsedMessage)
  | .bytes (.msgDoc m) => some (parse_msg m)
  | _ => Option.none

/-- The attachment loop (lines 174-243), dispatching on the lowercased
filename extension in source order; unknown extensions are skipped. -/
def processAtts : List Attachment → Except PyErr (List AttOutcome)
  | [] => .ok []
  | .mk fn data :: rest =>
    combineStep (stepResult (fn.getD "") data (nestedOf data)) (processAtts rest)
end

/-- What `extract_msg.Message(file_path)` finds at the path: a parseable
container, or bytes it rejects with an exception. -/
inductive ContainerInput where
  | valid (m : MsgFile)
  | invalid

/-- Opening the container (line 142) followed by the walker body. -/
def parse_msg_file : ContainerInput → Except PyErr ParsedMessage
  | .invalid => .error .containerOpenError
  | .valid m => parse_msg m

/-- `parse_email` (Parser_final_0501.py:264-270). -/
def parse_email (path : String) (content : ContainerInput) :
    Except PyErr ParsedMessage :=
  if pyEndsWith (lowerS path) ".msg" then parse_msg_file content
  else .error .unsupportedFormat

def MsgFile.sender : MsgFile → PyVal
  | .mk s _ _ _ _ _ _ => s

def MsgFile.msgTo : MsgFile → PyVal
  | .mk _ t _ _ _ _ _ => t

def MsgFile.cc : MsgFile → PyVal
  | .mk _ _ c _ _ _ _ => c

def MsgFile.date : MsgFile → PyDate
  | .mk _ _ _ d _ _ _ => d

def MsgFile.atts : MsgFile → List Attachment
  | .mk _ _ _ _ _ _ a => a

/-! ### C4: metadata shape -/

/-- **C4** counterexample: a container whose headers are absent parses
successfully, but its metadata has *no* subject key at all (under either
capitalization) and its `From` value is `None`, not a string — contrary
to the claimed six string-valued keys. -/
theorem C4_counterexample_metadata_shape :
    ∃ pm, parse_msg (MsgFile.mk .none .none .none .noneD Option.none Option.none []) =
        .ok pm ∧
      pm.metadata.lookup "subject" = Option.none ∧
      pm.metadata.lookup "Subject" = Option.none ∧
      pm.metadata.lookup "From" = some PyVal.none :=
  ⟨ParsedMessage.mk (metadataOf .none .none .none .noneD) "" [] [] [] [] [],
   rfl, rfl, rfl, rfl⟩

/-- **C4** (amended): the metadata of every successfully parsed container
consists of exactly the five entries `From, To, Cc, Bcc, Date` in that
order; `From`/`To`/`Cc` are the header values passed through unconverted
(possibly `None`), `Bcc` is always the empty string, and `Date` is always
a string — the ISO-8601 `isoformat()` of a structured datetime, otherwise
`str()` of whatever value was present (`"None"` when absent).  There is
no `subject` key. -/
theorem C4_metadata_five_keys (m : MsgFile) (pm : ParsedMessage)
    (h : parse_msg m = .ok pm) :
    pm.metadata = [("From", m.sender), ("To", m.msgTo), ("Cc", m.cc),
      ("Bcc", .pstr ""), ("Date", .pstr (dateString m.date))] := by
  rcases m with ⟨sender, msgTo, cc, date, body, htmlBody, atts⟩
  rw [parse_msg] at h
  cases hp : processAtts atts with
  | error e => rw [hp] at h; cases h
  | ok outs =>
    rw [hp] at h
    simp only [Except.ok.injEq] at h
    subst h
    rfl

theorem C4_metadata_five_keys_witness :
    (ParsedMessage.mk (metadataOf (.pstr "alice") .none .none
        (.dt "2024-01-01T00:00:00")) "" [] [] [] [] []).metadata =
      [("From", .pstr "alice"), ("To", PyVal.none), ("Cc", PyVal.none),
       ("Bcc", .pstr ""), ("Date", .pstr (dateString (.dt "2024-01-01T00:00:00")))] :=
  C4_metadata_five_keys
    (MsgFile.mk (.pstr "alice") .none .none (.dt "2024-01-01T00:00:00")
      Option.none Option.none [])
    (ParsedMessage.mk (metadataOf (.pstr "alice") .none .none
      (.dt "2024-01-01T00:00:00")) "" [] [] [] [] [])
    rfl

/-! ### C2: error propagation -/

/-- **C2** counterexample: a path that *is* a recognizable container
(ends in `.msg`) whose bytes the container library rejects makes
`parse_email` raise the container-open error — an exception other than
the unsupported-format error escapes, and no result dict is returned. -/
theorem C2_counterexample_open_error_escapes :
    parse_email "a.msg" .invalid = .error .containerOpenError ∧
      PyErr.containerOpenError ≠ PyErr.unsupportedFormat :=
  ⟨rfl, by decide⟩

/-- The staging of a recognized document attachment's bytes does not
raise (`tmpf.write(att.data)`, which is outside the per-attachment
`try`). -/
def stageSafe : Attachment → Prop
  | .mk fn data =>
    (classify (fn.getD "") = .pdf ∨ classify (fn.getD "") = .docx ∨
     classify (fn.getD "") = .pptx ∨ classify (fn.getD "") = .xlsx) →
    data ≠ AttData.raiseOnAccess

theorem stepResult_ok (fn : Option String) (data : AttData)
    (ha : stageSafe (.mk fn data)) :
    ∃ o, stepResult (fn.getD "") data (nestedOf data) = .ok o := by
  rcases data with _ | p
  · cases hc : classify (fn.getD "") with
    | pdf => exact absurd (ha (Or.inl hc)) (fun hne => hne rfl)
    | docx => exact absurd (ha (Or.inr (Or.inl hc))) (fun hne => hne rfl)
    | pptx => exact absurd (ha (Or.inr (Or.inr (Or.inl hc)))) (fun hne => hne rfl)
    | xlsx => exact absurd (ha (Or.inr (Or.inr (Or.inr hc)))) (fun hne => hne rfl)
    | msg =>
      rcases hn : nestedOf .raiseOnAccess with _ | r
      · exact ⟨.skip, by simp only [stepResult, hc, hn]⟩
      · cases r with
        | ok pm => exact ⟨.nested pm, by simp only [stepResult, hc, hn]⟩
        | error e => exact ⟨.skip, by simp only [stepResult, hc, hn]⟩
    | other => exact ⟨.skip, by simp only [stepResult, hc]⟩
  · cases hc : classify (fn.getD "") with
    | pdf =>
      cases he : extract_pdf_text p with
      | ok t => exact ⟨.pdfOut ⟨fn.getD "", t⟩, by simp only [stepResult, hc, he]⟩
      | error e => exact ⟨.skip, by simp only [stepResult, hc, he]⟩
    | docx =>
      cases he : extract_docx_text p with
      | ok t => exact ⟨.docxOut ⟨fn.getD "", t⟩, by simp only [stepResult, hc, he]⟩
      | error e => exact ⟨.skip, by simp only [stepResult, hc, he]⟩
    | pptx =>
      cases he : extract_pptx_text p with
      | ok t => exact ⟨.pptxOut ⟨fn.getD "", t⟩, by simp only [stepResult, hc, he]⟩
      | error e => exact ⟨.skip, by simp only [stepResult, hc, he]⟩
    | xlsx =>
      cases he : extract_excel_text p with
      | ok t => exact ⟨.xlsxOut ⟨fn.getD "", t⟩, by simp only [stepResult, hc, he]⟩
      | error e => exact ⟨.skip, by simp only [stepResult, hc, he]⟩
    | msg =>
      rcases hn : nestedOf (.bytes p) with _ | r
      · exact ⟨.skip, by simp only [stepResult, hc, hn]⟩
      · cases r with
        | ok pm => exact ⟨.nested pm, by simp only [stepResult, hc, hn]⟩
        | error e => exact ⟨.skip, by simp only [stepResult, hc, hn]⟩
    | other => exact ⟨.skip, by simp only [stepResult, hc]⟩

theorem processAtts_ok (atts : List Attachment)
    (h : ∀ a ∈ atts, stageSafe a) :
    ∃ outs, processAtts atts = .ok outs := by
  induction atts with
  | nil => exact ⟨[], rfl⟩
  | cons a rest ih =>
    obtain ⟨os, hos⟩ := ih (fun b hb => h b (List.mem_cons_of_mem a hb))
    rcases a with ⟨fn, data⟩
    obtain ⟨o, ho⟩ := stepResult_ok fn data (h _ (List.mem_cons_self _ _))
    exact ⟨o :: os, by simp only [processAtts, ho, hos, combineStep]⟩

/-- **C2** (amended): `parse_email` raises the unsupported-format error
exactly when the path does not end in `.msg` (case-insensitive); for a
`.msg` path it delegates to the walker, which can itself propagate
exceptions — opening the container can fail, and so can staging a
recognized document attachment's bytes — while per-attachment extraction
failures and nested-container failures are contained: whenever the
container opens and every recognized document attachment's bytes are
readable, a result is returned. -/
theorem C2_error_propagation (path : String) (content : ContainerInput) :
    (pyEndsWith (lowerS path) ".msg" = false →
       parse_email path content = .error .unsupportedFormat) ∧
    (pyEndsWith (lowerS path) ".msg" = true →
       parse_email path content = parse_msg_file content) ∧
    (∀ m, content = .valid m → (∀ a ∈ m.atts, stageSafe a) →
       ∃ pm, parse_msg_file content = .ok pm) := by
  refine ⟨?_, ?_, ?_⟩
  · intro h
    simp [parse_email, h]
  · intro h
    simp [parse_email, h]
  · intro m hm hsafe
    subst hm
    rcases m with ⟨sender, msgTo, cc, date, body, htmlBody, atts⟩
    obtain ⟨outs, houts⟩ := processAtts_ok atts hsafe
    refine ⟨ParsedMessage.mk (metadataOf sender msgTo cc date) (bodyOf body htmlBody)
      (outs.filterMap pdfSel) (outs.filterMap docxSel) (outs.filterMap pptxSel)
      (outs.filterMap xlsxSel) (outs.filterMap nestedSel), ?_⟩
    simp only [parse_msg_file, parse_msg, houts]

theorem C2_error_propagation_witness :
    (pyEndsWith (lowerS "report.txt") ".msg" = false ∧
       parse_email "report.txt" .invalid = .error .unsupportedFormat) ∧
    (pyEndsWith (lowerS "a.MSG") ".msg" = true ∧
       parse_email "a.MSG" .invalid = parse_msg_file .invalid) ∧
    (∃ pm, parse_msg_file
        (.valid (MsgFile.mk .none .none .none .noneD Option.none Option.none [])) =
      .ok pm) :=
  ⟨⟨by decide, (C2_error_propagation "report.txt" .invalid).1 (by decide)⟩,
   ⟨by decide, (C2_error_propagation "a.MSG" .invalid).2.1 (by decide)⟩,
   (C2_error_propagation "a.MSG"
       (.valid (MsgFile.mk .none .none .none .noneD Option.none Option.none []))).2.2
     (MsgFile.mk .none .none .none .noneD Option.none Option.none []) rfl
     (fun a ha => absurd ha (List.not_mem_nil a))⟩

/-! ### C7: extractors on unopenable payloads -/

/-- **C7** counterexample: an empty/zero-byte payload is not openable by
any of the four document libraries, and each extractor lets that
exception escape instead of returning the empty string. -/
theorem C7_counterexample_extractor_raises :
    extract_pdf_text Payload.rawBytes ≠ .ok "" ∧
      extract_docx_text Payload.rawBytes ≠ .ok "" ∧
      extract_pptx_text Payload.rawBytes ≠ .ok "" ∧
      extract_excel_text Payload.rawBytes ≠ .ok "" :=
  ⟨fun h => Except.noConfusion h, fun h => Except.noConfusion h,
   fun h => Except.noConfusion h, fun h => Except.noConfusion h⟩

/-- **C7** (amended): on an empty/zero-byte (or otherwise unopenable)
payload each format extractor raises an open-failure out of the
extractor; the Container Walker catches it and omits the attachment, so
the parse still succeeds; an *openable* document with no extractable
units does yield the empty content string. -/
theorem C7_unopenable_raises_walker_contains :
    extract_pdf_text Payload.rawBytes = .error .openFailure ∧
    extract_docx_text Payload.rawBytes = .error .openFailure ∧
    extract_pptx_text Payload.rawBytes = .error .openFailure ∧
    extract_excel_text Payload.rawBytes = .error .openFailure ∧
    extract_pdf_text (.pdfDoc []) = .ok "" ∧
    extract_docx_text (.docxDoc []) = .ok "" ∧
    extract_pptx_text (.pptxDoc []) = .ok "" ∧
    extract_excel_text (.xlsxDoc []) = .ok "" ∧
    parse_msg (MsgFile.mk .none .none .none .noneD Option.none Option.none
        [.mk (some "z.pdf") (.bytes .rawBytes),
         .mk (some "z.docx") (.bytes .rawBytes),
         .mk (some "z.pptx") (.bytes .rawBytes),
         .mk (some "z.xlsx") (.bytes .rawBytes)]) =
      .ok (.mk (metadataOf .none .none .none .noneD) "" [] [] [] [] []) :=
  ⟨rfl, rfl, rfl, rfl, rfl, rfl, rfl, rfl, rfl⟩

/-! ### C8: corrupt sibling isolation -/

/-- The outcome the attachment loop records for one attachment whose
staging succeeded (`stepResult_ok` shows the `.error` fallback is then
unreachable). -/
def stepOutcome : Attachment → AttOutcome
  | .mk fn data =>
    match stepResult (fn.getD "") data (nestedOf data) with
    | .ok o => o
    | .error _ => .skip

/-- Under stage-safety the attachment loop records exactly one outcome
per attachment, in list order. -/
theorem processAtts_eq_map (atts : List Attachment)
    (h : ∀ x ∈ atts, stageSafe x) :
    processAtts atts = .ok (atts.map stepOutcome) := by
  induction atts with
  | nil => rfl
  | cons a rest ih =>
    rcases a with ⟨fn, data⟩
    obtain ⟨o, ho⟩ := stepResult_ok fn data (h _ (List.mem_cons_self _ _))
    have hstep : stepOutcome (.mk fn data) = o := by
      simp only [stepOutcome, ho]
    simp only [processAtts, ho,
      ih (fun x hx => h x (List.mem_cons_of_mem _ hx)), combineStep,
      List.map_cons, hstep]

/-- A corrupt attachment: its kind is recognized, its bytes stage, and
processing it fails — the matching extractor raises, or (for an embedded
container) `att.save` / the recursive parse fails. -/
def corruptAtt : Attachment → Prop
  | .mk _ .raiseOnAccess => False
  | .mk fn (.bytes p) =>
    (classify (fn.getD "") = .pdf ∧ extract_pdf_text p = .error .openFailure) ∨
    (classify (fn.getD "") = .docx ∧ extract_docx_text p = .error .openFailure) ∨
    (classify (fn.getD "") = .pptx ∧ extract_pptx_text p = .error .openFailure) ∨
    (classify (fn.getD "") = .xlsx ∧ extract_excel_text p = .error .openFailure) ∨
    (classify (fn.getD "") = .msg ∧ ∀ pmn, nestedOf (.bytes p) ≠ some (.ok pmn))

/-- A valid attachment: its kind is recognized and processing succeeds —
the matching extractor returns text, or the embedded container parses. -/
def validAtt : Attachment → Prop
  | .mk _ .raiseOnAccess => False
  | .mk fn (.bytes p) =>
    (classify (fn.getD "") = .pdf ∧ ∃ t, extract_pdf_text p = .ok t) ∨
    (classify (fn.getD "") = .docx ∧ ∃ t, extract_docx_text p = .ok t) ∨
    (classify (fn.getD "") = .pptx ∧ ∃ t, extract_pptx_text p = .ok t) ∨
    (classify (fn.getD "") = .xlsx ∧ ∃ t, extract_excel_text p = .ok t) ∨
    (classify (fn.getD "") = .msg ∧ ∃ pmn, nestedOf (.bytes p) = some (.ok pmn))

/-- The extracted result of attachment `b` appears in `pm`: an extractor
succeeded on `b`'s payload and the resulting document is an entry of the
bucket for that kind (for an embedded container, the parsed child is
among `nested_emails`). -/
def appearsIn (b : Attachment) (pm : ParsedMessage) : Prop :=
  match b with
  | .mk _ .raiseOnAccess => False
  | .mk fn (.bytes p) =>
    (∃ t, extract_pdf_text p = .ok t ∧
      (⟨fn.getD "", t⟩ : ExtractedDoc) ∈ pm.pdf_attachments) ∨
    (∃ t, extract_docx_text p = .ok t ∧
      (⟨fn.getD "", t⟩ : ExtractedDoc) ∈ pm.docx_attachments) ∨
    (∃ t, extract_pptx_text p = .ok t ∧
      (⟨fn.getD "", t⟩ : ExtractedDoc) ∈ pm.pptx_attachments) ∨
    (∃ t, extract_excel_text p = .ok t ∧
      (⟨fn.getD "", t⟩ : ExtractedDoc) ∈ pm.excel_attachments) ∨
    (∃ pmn, nestedOf (.bytes p) = some (.ok pmn) ∧ pmn ∈ pm.nested_emails)

/-- A corrupt attachment is recorded as `.skip`: it contributes to no
bucket of the result. -/
theorem stepOutcome_skip_of_corrupt {a : Attachment} (h : corruptAtt a) :
    stepOutcome a = .skip := by
  rcases a with ⟨fn, data⟩
  rcases data with _ | p
  · exact h.elim
  · simp only [corruptAtt] at h
    rcases h with ⟨hc, he⟩ | ⟨hc, he⟩ | ⟨hc, he⟩ | ⟨hc, he⟩ | ⟨hc, he⟩
    · simp only [stepOutcome, stepResult, hc, he]
    · simp only [stepOutcome, stepResult, hc, he]
    · simp only [stepOutcome, stepResult, hc, he]
    · simp only [stepOutcome, stepResult, hc, he]
    · rcases hn : nestedOf (.bytes p) with _ | r
      · simp only [stepOutcome, stepResult, hc, hn]
      · cases r with
        | ok pmn => exact absurd hn (he pmn)
        | error e => simp only [stepOutcome, stepResult, hc, hn]

theorem stepOutcome_pdfOut {fn : Option String} {p : Payload} {t : String}
    (hc : classify (fn.getD "") = .pdf) (he : extract_pdf_text p = .ok t) :
    stepOutcome (.mk fn (.bytes p)) = .pdfOut ⟨fn.getD "", t⟩ := by
  simp only [stepOutcome, stepResult, hc, he]

theorem stepOutcome_docxOut {fn : Option String} {p : Payload} {t : String}
    (hc : classify (fn.getD "") = .docx) (he : extract_docx_text p = .ok t) :
    stepOutcome (.mk fn (.bytes p)) = .docxOut ⟨fn.getD "", t⟩ := by
  simp only [stepOutcome, stepResult, hc, he]

theorem stepOutcome_pptxOut {fn : Option String} {p : Payload} {t : String}
    (hc : classify (fn.getD "") = .pptx) (he : extract_pptx_text p = .ok t) :
    stepOutcome (.mk fn (.bytes p)) = .pptxOut ⟨fn.getD "", t⟩ := by
  simp only [stepOutcome, stepResult, hc, he]

theorem stepOutcome_xlsxOut {fn : Option String} {p : Payload} {t : String}
    (hc : classify (fn.getD "") = .xlsx) (he : extract_excel_text p = .ok t) :
    stepOutcome (.mk fn (.bytes p)) = .xlsxOut ⟨fn.getD "", t⟩ := by
  simp only [stepOutcome, stepResult, hc, he]

theorem stepOutcome_nestedOut {fn : Option String} {p : Payload}
    {pmn : ParsedMessage} (hc : classify (fn.getD "") = .msg)
    (hn : nestedOf (.bytes p) = some (.ok pmn)) :
    stepOutcome (.mk fn (.bytes p)) = .nested pmn := by
  simp only [stepOutcome, stepResult, hc, hn]

/-- **C8** (confirmed): for every container whose attachment list
contains a corrupt attachment `a` — of any recognized kind; its
extraction or nested parse fails — and a valid attachment `b` — of any
kind — in either order and among arbitrary further attachments (whose
bytes stage, per C2 a staging failure is a different, escaping error):
the failure is caught, the parse returns a result dict without raising,
`b`'s extracted result appears in the returned `ParsedMessage`, and the
output equals the parse of the same container with `a` removed — the
corrupt attachment is dropped and nothing else changes. -/
theorem C8_corrupt_attachment_isolated (sender msgTo cc : PyVal)
    (date : PyDate) (body htmlBody : Option String)
    (pre post : List Attachment) (a b : Attachment)
    (hsafe : ∀ x ∈ pre ++ a :: post, stageSafe x)
    (hb : b ∈ pre ++ a :: post)
    (hca : corruptAtt a) (hvb : validAtt b) :
    ∃ pm,
      parse_msg (.mk sender msgTo cc date body htmlBody (pre ++ a :: post)) =
          .ok pm ∧
        appearsIn b pm ∧
        parse_msg (.mk sender msgTo cc date body htmlBody (pre ++ a :: post)) =
          parse_msg (.mk sender msgTo cc date body htmlBody (pre ++ post)) := by
  have hsafe2 : ∀ x ∈ pre ++ post, stageSafe x := by
    intro x hx
    rcases List.mem_append.mp hx with h | h
    · exact hsafe x (List.mem_append.mpr (Or.inl h))
    · exact hsafe x (List.mem_append.mpr (Or.inr (List.mem_cons_of_mem a h)))
  have h1 := processAtts_eq_map (pre ++ a :: post) hsafe
  have h2 := processAtts_eq_map (pre ++ post) hsafe2
  have hskip : stepOutcome a = .skip := stepOutcome_skip_of_corrupt hca
  have hdrop : ∀ {α : Type} (sel : AttOutcome → Option α),
      sel .skip = Option.none →
      ((pre ++ a :: post).map stepOutcome).filterMap sel =
        ((pre ++ post).map stepOutcome).filterMap sel := by
    intro α sel hsel
    simp [List.map_append, List.filterMap_append, hskip, hsel]
  refine ⟨.mk (metadataOf sender msgTo cc date) (bodyOf body htmlBody)
      (((pre ++ a :: post).map stepOutcome).filterMap pdfSel)
      (((pre ++ a :: post).map stepOutcome).filterMap docxSel)
      (((pre ++ a :: post).map stepOutcome).filterMap pptxSel)
      (((pre ++ a :: post).map stepOutcome).filterMap xlsxSel)
      (((pre ++ a :: post).map stepOutcome).filterMap nestedSel), ?_, ?_, ?_⟩
  · simp only [parse_msg, h1]
  · have hmem : stepOutcome b ∈ (pre ++ a :: post).map stepOutcome :=
      List.mem_map_of_mem stepOutcome hb
    rcases b with ⟨fnb, datab⟩
    rcases datab with _ | q
    · exact hvb.elim
    · simp only [validAtt] at hvb
      simp only [appearsIn]
      rcases hvb with ⟨hc, t, he⟩ | ⟨hc, t, he⟩ | ⟨hc, t, he⟩ | ⟨hc, t, he⟩ |
        ⟨hc, pmn, hn⟩
      · refine Or.inl ⟨t, he, ?_⟩
        simp only [ParsedMessage.pdf_attachments]
        exact List.mem_filterMap.mpr
          ⟨_, hmem, by rw [stepOutcome_pdfOut hc he]; rfl⟩
      · refine Or.inr (Or.inl ⟨t, he, ?_⟩)
        simp only [ParsedMessage.docx_attachments]
        exact List.mem_filterMap.mpr
          ⟨_, hmem, by rw [stepOutcome_docxOut hc he]; rfl⟩
      · refine Or.inr (Or.inr (Or.inl ⟨t, he, ?_⟩))
        simp only [ParsedMessage.pptx_attachments]
        exact List.mem_filterMap.mpr
          ⟨_, hmem, by rw [stepOutcome_pptxOut hc he]; rfl⟩
      · refine Or.inr (Or.inr (Or.inr (Or.inl ⟨t, he, ?_⟩)))
        simp only [ParsedMessage.excel_attachments]
        exact List.mem_filterMap.mpr
          ⟨_, hmem, by rw [stepOutcome_xlsxOut hc he]; rfl⟩
      · refine Or.inr (Or.inr (Or.inr (Or.inr ⟨pmn, hn, ?_⟩)))
        simp only [ParsedMessage.nested_emails]
        exact List.mem_filterMap.mpr
          ⟨_, hmem, by rw [stepOutcome_nestedOut hc hn]; rfl⟩
  · simp only [parse_msg, h1, h2]
    rw [hdrop pdfSel rfl, hdrop docxSel rfl, hdrop pptxSel rfl,
      hdrop xlsxSel rfl, hdrop nestedSel rfl]

theorem C8_corrupt_attachment_isolated_witness :
    (∀ x ∈ [Attachment.mk (some "good.pdf") (.bytes (.pdfDoc [some "Hello"])),
        Attachment.mk (some "bad.docx") (.bytes .rawBytes)], stageSafe x) ∧
      Attachment.mk (some "good.pdf") (.bytes (.pdfDoc [some "Hello"])) ∈
        [Attachment.mk (some "good.pdf") (.bytes (.pdfDoc [some "Hello"])),
         Attachment.mk (some "bad.docx") (.bytes .rawBytes)] ∧
      corruptAtt (.mk (some "bad.docx") (.bytes .rawBytes)) ∧
      validAtt (.mk (some "good.pdf") (.bytes (.pdfDoc [some "Hello"]))) ∧
      ∃ pm,
        parse_msg (.mk .none .none .none .noneD Option.none Option.none
            [.mk (some "good.pdf") (.bytes (.pdfDoc [some "Hello"])),
             .mk (some "bad.docx") (.bytes .rawBytes)]) = .ok pm ∧
          appearsIn (.mk (some "good.pdf") (.bytes (.pdfDoc [some "Hello"]))) pm ∧
          parse_msg (.mk .none .none .none .noneD Option.none Option.none
              [.mk (some "good.pdf") (.bytes (.pdfDoc [some "Hello"])),
               .mk (some "bad.docx") (.bytes .rawBytes)]) =
            parse_msg (.mk .none .none .none .noneD Option.none Option.none
              [.mk (some "good.pdf") (.bytes (.pdfDoc [some "Hello"]))]) := by
  have hsafe : ∀ x ∈ [Attachment.mk (some "good.pdf")
        (.bytes (.pdfDoc [some "Hello"])),
      Attachment.mk (some "bad.docx") (.bytes .rawBytes)], stageSafe x := by
    intro x hx
    rcases List.mem_cons.mp hx with rfl | hx2
    · exact fun _ hne => AttData.noConfusion hne
    · rcases List.mem_cons.mp hx2 with rfl | hx3
      · exact fun _ hne => AttData.noConfusion hne
      · exact absurd hx3 (List.not_mem_nil x)
  have hca : corruptAtt (.mk (some "bad.docx") (.bytes .rawBytes)) :=
    Or.inr (Or.inl ⟨by decide, rfl⟩)
  have hvb : validAtt (.mk (some "good.pdf")
      (.bytes (.pdfDoc [some "Hello"]))) :=
    Or.inl ⟨by decide, pdfJoin [some "Hello"], rfl⟩
  exact ⟨hsafe, List.mem_cons_self _ _, hca, hvb,
    C8_corrupt_attachment_isolated .none .none .none .noneD Option.none
      Option.none
      [Attachment.mk (some "good.pdf") (.bytes (.pdfDoc [some "Hello"]))] []
      (Attachment.mk (some "bad.docx") (.bytes .rawBytes))
      (Attachment.mk (some "good.pdf") (.bytes (.pdfDoc [some "Hello"])))
      hsafe (List.mem_cons_self _ _) hca hvb⟩

/-! ### C1: no recursion-depth bound -/

/-- A chain of containers, each embedding the next as a `.msg`
attachment. -/
def chainMsg : Nat → MsgFile
  | 0 => .mk .none .none .none .noneD Option.none Option.none []
  | n + 1 => .mk .none .none .none .noneD Option.none Option.none
      [.mk (some "inner.msg") (.bytes (.msgDoc (chainMsg n)))]

/-- Depth of the first-child chain of `nested_emails`. -/
def nestedDepth : ParsedMessage → Nat
  | .mk _ _ _ _ _ _ [] => 0
  | .mk _ _ _ _ _ _ (pm :: _) => nestedDepth pm + 1

/-- **C1** (code bug): `parse_msg` enforces *no* recursion-depth bound at
all — for every `n`, a container chain nested `n` levels deep parses to a
`nested_emails` chain of depth exactly `n` (so no fixed limit such as 25
ever truncates a branch; termination relies solely on the input being
finite, contrary to the spec's required depth bound). -/
theorem C1_no_depth_bound (n : Nat) :
    ∃ pm, parse_msg (chainMsg n) = .ok pm ∧ nestedDepth pm = n := by
  induction n with
  | zero => exact ⟨ParsedMessage.mk (metadataOf .none .none .none .noneD)
      "" [] [] [] [] [], rfl, rfl⟩
  | succ n ih =>
    obtain ⟨pm, hp, hd⟩ := ih
    refine ⟨.mk (metadataOf .none .none .none .noneD) "" [] [] [] [] [pm],
      ?_, ?_⟩
    · have hc : classify "inner.msg" = ExtKind.msg := by decide
      simp only [chainMsg, parse_msg, processAtts, stepResult, nestedOf,
        combineStep, Option.getD, hc, hp, List.filterMap_cons,
        List.filterMap_nil, pdfSel, docxSel, pptxSel, xlsxSel, nestedSel]
      rfl
    · simp [nestedDepth, hd]

end EmailParser
